import Mathlib

set_option maxRecDepth 100000

/-!
Verification of the cargo-scan python scripts (`scan.py`, `scripts/scan.py`,
`src/gather.py`): a shallow embedding of the parsing, classification and
aggregation core, together with theorems settling the specified properties.

Python strings are modelled as `List Char`; logging calls are modelled by
returning a list of `Warning` tags (the message payloads, built with
`truncate_str`, carry no information relevant to the properties); functions
that can raise an uncaught exception return an `Option`, with `none` for the
exceptional run.
-/

namespace CargoScan

/-- Python strings, modelled as lists of characters. -/
abbrev PyStr := List Char

/-- Convenience: a Lean string literal as a `PyStr`. -/
def str (s : String) : PyStr := s.toList

/-- The characters removed by Python's `str.strip()` with no argument. -/
def isSpace (c : Char) : Bool := c ∈ [' ', '\t', '\n', '\r', '\x0b', '\x0c']

/-- Python `s.strip()`: remove leading and trailing whitespace. -/
def pyStrip (s : PyStr) : PyStr :=
  ((s.dropWhile isSpace).reverse.dropWhile isSpace).reverse

/-- Lexicographic comparison on code points: Python's `<=` on strings. -/
def strLe : PyStr → PyStr → Bool
  | [], _ => true
  | _ :: _, [] => false
  | a :: as, b :: bs => if a = b then strLe as bs else decide (a.val < b.val)

/-- Insert into a `strLe`-sorted list, before the first element `≥` it. -/
def insertSorted (x : PyStr) : List PyStr → List PyStr
  | [] => [x]
  | y :: ys => if strLe x y then x :: y :: ys else y :: insertSorted x ys

/-- Python `sorted` on a list of strings (stable; lexicographic ascending). -/
def pySorted : List PyStr → List PyStr
  | [] => []
  | x :: xs => insertSorted x (pySorted xs)

/-- Tags for the `logging.warning` calls made by the embedded functions. -/
inductive Warning
  | foundComma
  | multipleMatches
  | expectedNewline
  | expectedUse
  | expectedSemicolon
  | unexpectedSlash
  | expectedSemicolonAtEnd
  | extraSemicolon
  | unexpectedComma
  | unexpectedCloseBrace
  | unclosedBrace
  | miraiBadParts
  deriving Repr, DecidableEq

/-- `sanitize_comma` (scan.py:107-110): warn if a comma is present, and
return the string with every comma removed (`s.replace(',', '')`). -/
def sanitize_comma (s : PyStr) : PyStr × List Warning :=
  (s.filter (fun c => c ≠ ','), if ',' ∈ s then [Warning.foundComma] else [])

/-- The `Effect` dataclass (scan.py:114-125).  The python field `fun` is a
Lean keyword, so it is called `fn` here. -/
structure Effect where
  crate : PyStr
  pattern : PyStr
  dir : PyStr
  file : PyStr
  fn : PyStr
  deriving Repr, DecidableEq

/-- Python `", ".join(l)`. -/
def joinCommaSpace : List PyStr → PyStr
  | [] => []
  | [x] => x
  | x :: y :: xs => x ++ str ", " ++ joinCommaSpace (y :: xs)

/-- The five fields of an `Effect` in the order `to_csv` emits them. -/
def effFields (e : Effect) : List PyStr :=
  [e.crate, e.pattern, e.dir, e.file, e.fn]

/-- `Effect.to_csv` (scan.py:130-136): sanitize each field, join with ", ". -/
def to_csv (e : Effect) : PyStr × List Warning :=
  let crate := sanitize_comma e.crate
  let pattern := sanitize_comma e.pattern
  let dir := sanitize_comma e.dir
  let file := sanitize_comma e.file
  let fn := sanitize_comma e.fn
  (joinCommaSpace [crate.1, pattern.1, dir.1, file.1, fn.1],
    crate.2 ++ pattern.2 ++ dir.2 ++ file.2 ++ fn.2)

/-- One iteration of the `for p in of_interest` loop of `is_of_interest`:
when the pattern matches, warn if a pattern had already matched, then
overwrite `found`. -/
def ioiStep (m : PyStr → PyStr → Bool) (line : PyStr)
    (acc : Option PyStr × List Warning) (p : PyStr) : Option PyStr × List Warning :=
  if m p line then
    (some p, acc.2 ++ if acc.1.isSome then [Warning.multipleMatches] else [])
  else acc

/-- `is_of_interest` (scan.py:218-225) and `of_interest` (gather.py:278-287).
The call `re.search(p, line)` to the external regex library is abstracted as
the predicate `m p line`. -/
def is_of_interest (m : PyStr → PyStr → Bool) (line : PyStr)
    (of_interest : List PyStr) : Option PyStr × List Warning :=
  of_interest.foldl (ioiStep m line) (none, [])

end CargoScan

namespace CargoScan

/-! ### `parse_use_core` (scan.py:227-252) -/

/-- The loop state of `parse_use_core`: the prefix stack (`stack[-1]` is the
head), the accumulators `cur` and `pending`, the paths yielded so far, the
warnings logged so far, and whether the generator has returned early. -/
structure CoreSt where
  stack : List PyStr
  cur : PyStr
  pending : PyStr
  yielded : List PyStr
  warns : List Warning
  aborted : Bool
  deriving Repr, DecidableEq

/-- One iteration of the `for ch in expr` loop of `parse_use_core`.  After an
early `return` (`aborted`) the remaining characters are ignored. -/
def coreStep (st : CoreSt) (ch : Char) : CoreSt :=
  if st.aborted then st
  else
    let commit : Bool := ch = '{' ∨ ch = ',' ∨ ch = '}'
    let cur := if commit then st.cur ++ pyStrip st.pending else st.cur
    let pending : PyStr := if commit then [] else st.pending
    if ch = '{' then
      { st with stack := cur :: st.stack, cur := cur, pending := pending }
    else if ch = ',' then
      match st.stack with
      | [] => { st with cur := cur, pending := pending,
                        warns := st.warns ++ [Warning.unexpectedComma],
                        aborted := true }
      | top :: _ => { st with cur := top, pending := pending,
                              yielded := st.yielded ++ [cur] }
    else if ch = '}' then
      match st.stack with
      | [] => { st with cur := cur, pending := pending,
                        warns := st.warns ++ [Warning.unexpectedCloseBrace],
                        aborted := true }
      | _ :: rest => { st with stack := rest, cur := cur, pending := pending }
    else { st with pending := st.pending ++ [ch] }

/-- The initial state of `parse_use_core`. -/
def coreInit : CoreSt :=
  { stack := [], cur := [], pending := [], yielded := [], warns := [],
    aborted := false }

/-- `parse_use_core` (scan.py:227-252), with the generator's yields collected
into a list.  On an early return the paths yielded so far are kept; otherwise
the unclosed-brace check runs and the final `cur` is flushed and yielded. -/
def parse_use_core (expr : PyStr) : List PyStr × List Warning :=
  let st := expr.foldl coreStep coreInit
  if st.aborted then (st.yielded, st.warns)
  else
    let warns := if st.stack = [] then st.warns
                 else st.warns ++ [Warning.unclosedBrace]
    (st.yielded ++ [st.cur ++ pyStrip st.pending], warns)

/-- The intermediate `expr` of `parse_use` after the precondition checks:
drop the leading `use ` keyword and remove the newlines
(`expr[4:]` then `expr.replace('\n', '')`). -/
def use_e1 (expr : PyStr) : PyStr :=
  (expr.drop 4).filter (fun c => c ≠ '\n')

/-- The normalized body of a use-expression, as computed inside `parse_use`:
drop the leading keyword, remove newlines, drop the trailing semicolon. -/
def use_body (expr : PyStr) : PyStr :=
  (use_e1 expr).dropLast

/-- `parse_use` (scan.py:254-294).  `none` models an uncaught exception: the
indexing `expr[-1]` raises `IndexError` on an empty string (and likewise on
the normalized string, though that case is unreachable).  The nonemptiness
guards let the python indexing `expr[-1]` be rendered with `getLastD`. -/
def parse_use (expr : PyStr) : Option (List PyStr × List Warning) :=
  if expr = [] then none
  else if expr.getLastD ' ' ≠ '\n' then some ([], [Warning.expectedNewline])
  else if expr.take 4 ≠ str "use " then some ([], [Warning.expectedUse])
  else if ';' ∉ expr then some ([], [Warning.expectedSemicolon])
  else if '/' ∈ expr then some ([], [Warning.unexpectedSlash])
  else if use_e1 expr = [] then none
  else if (use_e1 expr).getLastD ' ' ≠ ';' then
    some ([], [Warning.expectedSemicolonAtEnd])
  else
    some (pySorted (parse_use_core (use_body expr)).1,
      (if ';' ∈ use_body expr then [Warning.extraSemicolon] else [])
        ++ (parse_use_core (use_body expr)).2)

end CargoScan

namespace CargoScan

/-! ### `scan_rs` (scan.py:311-327) -/

/-- The loop of `scan_rs` with the accumulator `curr` explicit.  The chain of
`re.sub` comment-stripping calls applied to a chunk just before it is yielded
is abstracted as the function `stripC`.  Returns the yielded chunks together
with the residual `curr` left when the file ends. -/
def scanGo (stripC : PyStr → PyStr) : PyStr → List PyStr → List PyStr × PyStr
  | curr, [] => ([], curr)
  | curr, l :: ls =>
    let c := curr ++ l
    if ';' ∈ c then
      let rest := scanGo stripC [] ls
      (stripC c :: rest.1, rest.2)
    else scanGo stripC c ls

/-- `scan_rs` (scan.py:311-327): the generator's yields.  The residual text
accumulated after the last semicolon is dropped, as in the source. -/
def scan_rs (stripC : PyStr → PyStr) (lines : List PyStr) : List PyStr :=
  (scanGo stripC [] lines).1

/-! ### `parse_mirai_call_line` (scan.py:353-372) -/

/-- Python `s.replace(old, new)` with fuel (the fuel is the length of `s`,
which bounds the number of steps whenever `old` is non-empty). -/
def pyReplaceAux : Nat → PyStr → PyStr → PyStr → PyStr
  | 0, s, _, _ => s
  | Nat.succ fuel, s, old, new =>
    match s with
    | [] => []
    | c :: rest =>
      if old ≠ [] ∧ old.isPrefixOf (c :: rest) then
        new ++ pyReplaceAux fuel ((c :: rest).drop old.length) old new
      else c :: pyReplaceAux fuel rest old new

/-- Python `s.replace(old, new)`: leftmost non-overlapping replacement. -/
def pyReplace (s old new : PyStr) : PyStr := pyReplaceAux s.length s old new

/-- Python `s.split(sep)` for a one-character separator: split at every
occurrence, keeping empty segments. -/
def pySplitOn (sep : Char) : PyStr → List PyStr
  | [] => [[]]
  | c :: rest =>
    match pySplitOn sep rest with
    | [] => [[]]
    | g :: gs => if c = sep then [] :: g :: gs else (c :: g) :: gs

/-- The token list computed by `parse_mirai_call_line` (scan.py:354-363):
strip the known punctuation separators, then strip and split on spaces. -/
def mirai_parts (line : PyStr) : List PyStr :=
  pySplitOn ' ' (pyStrip
    (pyReplace
      (pyReplace
        (pyReplace
          (pyReplace
            (pyReplace
              (pyReplace line (str " (") (str " "))
              (str "(") (str " "))
            (str " ~ ") (str " "))
          (str "), ") (str " "))
        (str ")") (str " "))
      (str ": ") (str " ")))

/-- `parse_mirai_call_line` (scan.py:353-372).  The outer `none` models an
uncaught exception: the tuple unpacking `src_dir, path = tuple(parts[3].split("/"))`
raises `ValueError` unless the split has exactly two elements.  The inner
`none` is the function's own `return None` on a bad token count.  The python
indexing `parts[2]` and `parts[3]` is rendered with `getD`; the default is
unreachable because it is guarded by the length check. -/
def parse_mirai_call_line (line : PyStr) :
    Option (Option (PyStr × PyStr × PyStr) × List Warning) :=
  let parts := mirai_parts line
  if parts.length ≠ 6 then some (none, [Warning.miraiBadParts])
  else
    match pySplitOn '/' (parts.getD 3 []) with
    | [src_dir, path] => some (some (parts.getD 2 [], src_dir, path), [])
    | _ => none

/-! ### Summary aggregation (scan.py:464-484, scripts/scan.py:242-265) -/

/-- A Python dict from strings to counters, modelled as an association list
in insertion order. -/
abbrev Summary := List (PyStr × Nat)

/-- `sum(d.values())`. -/
def sumVals (d : Summary) : Nat := (d.map Prod.snd).sum

/-- `d[key] += 1` on a dict: increment the entry for `key`; `none` models the
`KeyError` raised when `key` is absent. -/
def incrKey : Summary → PyStr → Option Summary
  | [], _ => none
  | (k, v) :: rest, key =>
    if k = key then some ((k, v + 1) :: rest)
    else (incrKey rest key).map (fun r => (k, v) :: r)

/-- `d.setdefault(key, v)`: insert `(key, v)` at the end if absent. -/
def setdefault (m : Summary) (key : PyStr) (v : Nat) : Summary :=
  if key ∈ m.map Prod.fst then m else m ++ [(key, v)]

/-- The two summary dicts of the scan entrypoints. -/
structure ScanState where
  crate_summary : Summary
  pattern_summary : Summary
  deriving Repr, DecidableEq

/-- The summary update of scan.py's scan loop (scan.py:480-484):
`crate_summary[crate] += 1; pattern_summary[effect.pattern] += 1`, with
`none` for a `KeyError` on either dict. -/
def record (st : ScanState) (crate : PyStr) (e : Effect) : Option ScanState :=
  (incrKey st.crate_summary crate).bind (fun cs =>
    (incrKey st.pattern_summary e.pattern).map (fun ps =>
      { crate_summary := cs, pattern_summary := ps }))

/-- Recording a whole sequence of effects, as in the scan loop. -/
def recordAll (st : ScanState) : List (PyStr × Effect) → Option ScanState
  | [] => some st
  | (c, e) :: rest => (record st c e).bind (fun st2 => recordAll st2 rest)

/-- The summary update of scripts/scan.py's main loop (scripts/scan.py:263-265):
`crate_summary[crate] += 1; pattern_summary.setdefault(eff_pat, 0);
pattern_summary[eff_pat] += 1`. -/
def record_scripts (st : ScanState) (crate : PyStr) (pat : PyStr) :
    Option ScanState :=
  (incrKey st.crate_summary crate).bind (fun cs =>
    (incrKey (setdefault st.pattern_summary pat 0) pat).map (fun ps =>
      { crate_summary := cs, pattern_summary := ps }))

/-- Recording a whole sequence of scripts/scan.py effects. -/
def recordAll_scripts (st : ScanState) : List (PyStr × PyStr) → Option ScanState
  | [] => some st
  | (c, p) :: rest => (record_scripts st c p).bind (fun st2 => recordAll_scripts st2 rest)

/-- The number of positions at which two summaries disagree. -/
def countChanged (a b : Summary) : Nat :=
  ((a.zip b).filter (fun p => p.1 ≠ p.2)).length

end CargoScan

namespace CargoScan

/-! ### `make_summary` (scan.py:177-206) -/

/-- `sorted(d.items(), key=lambda x: x[1], reverse=True)`: insert before the
first element of no larger count (stable descending sort by count). -/
def insertDesc (x : PyStr × Nat) : Summary → Summary
  | [] => [x]
  | y :: ys => if y.2 ≤ x.2 then x :: y :: ys else y :: insertDesc x ys

/-- `sort_summary_dict` (scan.py:177-178). -/
def sort_summary_dict : Summary → Summary
  | [] => []
  | x :: xs => insertDesc x (sort_summary_dict xs)

/-- Decimal rendering of a counter, as in an f-string. -/
def natStr (n : Nat) : PyStr := Nat.toDigits 10 n

/-- One `f"{p}: {n}\n"` line of the summary report. -/
def summaryLine (p : PyStr) (n : Nat) : PyStr :=
  p ++ str ": " ++ natStr n ++ ['\n']

/-- The crate-section loop of `make_summary` (scan.py:193-201): fold over the
sorted crate summary accumulating the rendered lines, the number of crates
with a nonzero count and the number with a zero count. -/
def crateFold (acc : PyStr × Nat × Nat) (cn : PyStr × Nat) : PyStr × Nat × Nat :=
  if 0 < cn.2 then (acc.1 ++ summaryLine cn.1 cn.2, acc.2.1 + 1, acc.2.2)
  else (acc.1, acc.2.1, acc.2.2 + 1)

/-- `make_summary` (scan.py:180-206).  `none` models the failure of the
`assert` on the two value sums. -/
def make_summary (crate_summary pattern_summary : Summary) : Option PyStr :=
  if sumVals crate_summary = sumVals pattern_summary then
    some (str "===== Patterns =====\n"
      ++ str "Total instances of each import pattern:\n"
      ++ (sort_summary_dict pattern_summary).foldl
          (fun r pn => r ++ summaryLine pn.1 pn.2) []
      ++ str "===== Crate Summary =====\n"
      ++ str "Number of dangerous imports by crate:\n"
      ++ ((sort_summary_dict crate_summary).foldl crateFold ([], 0, 0)).1
      ++ str "===== Crate Totals =====\n"
      ++ natStr ((sort_summary_dict crate_summary).foldl crateFold ([], 0, 0)).2.1
      ++ str " crates with 1 or more dangerous imports\n"
      ++ natStr ((sort_summary_dict crate_summary).foldl crateFold ([], 0, 0)).2.2
      ++ str " crates with 0 dangerous imports\n")
  else none

/-- The rendered lines of a summary section, one per entry, in order. -/
def linesOf (l : Summary) : PyStr :=
  (l.map (fun pn => summaryLine pn.1 pn.2)).flatten

/-- A summary is sorted in descending order of count. -/
def sortedDesc (l : Summary) : Prop :=
  l.Chain' (fun a b => b.2 ≤ a.2)

/-! ### Brace balance -/

/-- Depth scan of the brace structure: `none` when a closing brace occurs at
depth zero, otherwise the final depth. -/
def scanDepth : List Char → Nat → Option Nat
  | [], d => some d
  | c :: cs, d =>
    if c = '{' then scanDepth cs (d + 1)
    else if c = '}' then
      match d with
      | 0 => none
      | Nat.succ d2 => scanDepth cs d2
    else scanDepth cs d

/-- A string has balanced braces: the depth never goes negative and ends at
zero. -/
def balancedBraces (s : PyStr) : Prop := scanDepth s 0 = some 0

instance (s : PyStr) : Decidable (balancedBraces s) :=
  inferInstanceAs (Decidable (scanDepth s 0 = some 0))

end CargoScan

namespace CargoScan

/-! ### Claim C8: `to_csv` sanitization -/

/-- Claim C8: serialization via `to_csv` removes every occurrence of the
field separator `','` from each of the five fields (crate, pattern, dir,
file, fun) before emission, and a warning is logged exactly when some field
contained a comma, so no emitted field value contains a comma. -/
theorem claim8_to_csv_strips_commas (e : Effect) :
    (to_csv e).1 =
      joinCommaSpace ((effFields e).map (fun f => f.filter (fun ch => ch ≠ ','))) ∧
    (∀ f ∈ (effFields e).map (fun f => f.filter (fun ch => ch ≠ ',')), ',' ∉ f) ∧
    ((to_csv e).2 ≠ [] ↔ ∃ f ∈ effFields e, ',' ∈ f) := by
  refine ⟨rfl, ?_, ?_⟩
  · intro f hf
    simp only [effFields, List.map_cons, List.map_nil, List.mem_cons,
      List.not_mem_nil, or_false] at hf
    rcases hf with h | h | h | h | h <;> subst h <;>
      · intro hmem
        rcases List.mem_filter.mp hmem with ⟨-, hdec⟩
        simp at hdec
  · by_cases h1 : ',' ∈ e.crate <;> by_cases h2 : ',' ∈ e.pattern <;>
      by_cases h3 : ',' ∈ e.dir <;> by_cases h4 : ',' ∈ e.file <;>
      by_cases h5 : ',' ∈ e.fn <;>
      simp [to_csv, sanitize_comma, effFields, h1, h2, h3, h4, h5]

/-! ### Claim C5: `is_of_interest` -/

/-- The result of the `is_of_interest` fold is the last matching pattern. -/
lemma ioi_fst (m : PyStr → PyStr → Bool) (line : PyStr) :
    ∀ (pats : List PyStr) (acc : Option PyStr × List Warning),
      (pats.foldl (ioiStep m line) acc).1 =
        if pats.filter (fun p => m p line) = [] then acc.1
        else (pats.filter (fun p => m p line)).getLast? := by
  intro pats
  induction pats with
  | nil => intro acc; simp
  | cons p ps ih =>
    intro acc
    by_cases h : m p line
    · rw [List.foldl_cons, ih]
      rcases hf : ps.filter (fun q => m q line) with - | ⟨q, qs⟩
      · simp [List.filter_cons, h, hf, ioiStep]
      · simp [List.filter_cons, h, hf, List.getLast?_cons_cons]
    · rw [List.foldl_cons]
      simp only [ioiStep, h, if_neg, Bool.false_eq_true, ite_false]
      rw [ih]
      simp [List.filter_cons, h]

/-- The fold only ever appends to the warning list. -/
lemma ioi_warns_ext (m : PyStr → PyStr → Bool) (line : PyStr) :
    ∀ (pats : List PyStr) (acc : Option PyStr × List Warning),
      ∃ ext, (pats.foldl (ioiStep m line) acc).2 = acc.2 ++ ext := by
  intro pats
  induction pats with
  | nil => intro acc; exact ⟨[], by simp⟩
  | cons p ps ih =>
    intro acc
    rw [List.foldl_cons]
    obtain ⟨ext, hext⟩ := ih (ioiStep m line acc p)
    by_cases h : m p line
    · refine ⟨(if acc.1.isSome then [Warning.multipleMatches] else []) ++ ext, ?_⟩
      rw [hext]
      simp [ioiStep, h]
    · refine ⟨ext, ?_⟩
      rw [hext]
      simp [ioiStep, h]

/-- If a pattern has already matched and another will, a warning is logged. -/
lemma ioi_warns_of_some (m : PyStr → PyStr → Bool) (line : PyStr) :
    ∀ (pats : List PyStr) (acc : Option PyStr × List Warning),
      acc.1.isSome → pats.filter (fun p => m p line) ≠ [] →
      (pats.foldl (ioiStep m line) acc).2 ≠ [] := by
  intro pats
  induction pats with
  | nil => intro acc _ hne; simp at hne
  | cons p ps ih =>
    intro acc hsome hne
    rw [List.foldl_cons]
    by_cases h : m p line
    · obtain ⟨ext, hext⟩ := ioi_warns_ext m line ps (ioiStep m line acc p)
      rw [hext]
      simp [ioiStep, h, hsome]
    · have hstep : ioiStep m line acc p = acc := by simp [ioiStep, h]
      rw [hstep]
      refine ih acc hsome ?_
      simpa [List.filter_cons, h] using hne

/-- With two or more matches, starting from no match, a warning is logged. -/
lemma ioi_warns_two (m : PyStr → PyStr → Bool) (line : PyStr) :
    ∀ pats : List PyStr, 1 < (pats.filter (fun p => m p line)).length →
      (pats.foldl (ioiStep m line) (none, [])).2 ≠ [] := by
  intro pats
  induction pats with
  | nil => simp
  | cons p ps ih =>
    intro h
    rw [List.foldl_cons]
    by_cases hm : m p line
    · have hne : ps.filter (fun q => m q line) ≠ [] := by
        intro he
        rw [List.filter_cons, if_pos (by simpa using hm), he] at h
        simp at h
      exact ioi_warns_of_some m line ps (ioiStep m line (none, []) p)
        (by simp [ioiStep, hm]) hne
    · have h2 : 1 < (ps.filter (fun q => m q line)).length := by
        rwa [List.filter_cons, if_neg (by simpa using hm)] at h
      simpa [ioiStep, hm] using ih h2

/-- Claim C5: `is_of_interest` returns `none` when no pattern matches the
line; when more than one pattern matches, it returns the last matching
pattern in iteration order and emits a warning. -/
theorem claim5_is_of_interest_last_match (m : PyStr → PyStr → Bool)
    (line : PyStr) (pats : List PyStr) :
    (pats.filter (fun p => m p line) = [] →
      (is_of_interest m line pats).1 = none) ∧
    (1 < (pats.filter (fun p => m p line)).length →
      (is_of_interest m line pats).1 = (pats.filter (fun p => m p line)).getLast? ∧
      (is_of_interest m line pats).2 ≠ []) := by
  constructor
  · intro h
    rw [is_of_interest, ioi_fst]
    simp [h]
  · intro h
    have hne : pats.filter (fun p => m p line) ≠ [] := by
      intro he
      rw [he] at h
      simp at h
    refine ⟨?_, ioi_warns_two m line pats h⟩
    rw [is_of_interest, ioi_fst]
    simp [hne]

/-- Witness for C5 at a concrete matcher, line and pattern list with two
matching patterns. -/
theorem claim5_witness :
    1 < (([str "a", str "b"]).filter
      (fun p => (fun (q : PyStr) (_ : PyStr) => !q.isEmpty) p (str "x"))).length ∧
    (is_of_interest (fun (q : PyStr) (_ : PyStr) => !q.isEmpty) (str "x")
      [str "a", str "b"]).1 =
      (([str "a", str "b"]).filter
        (fun p => (fun (q : PyStr) (_ : PyStr) => !q.isEmpty) p (str "x"))).getLast? ∧
    (is_of_interest (fun (q : PyStr) (_ : PyStr) => !q.isEmpty) (str "x")
      [str "a", str "b"]).2 ≠ [] := by
  refine ⟨by decide, ?_, ?_⟩
  · exact ((claim5_is_of_interest_last_match _ _ _).2 (by decide)).1
  · exact ((claim5_is_of_interest_last_match _ _ _).2 (by decide)).2

end CargoScan

namespace CargoScan

/-! ### Claims C1 and C4: summary aggregation -/

/-- A successful dict increment adds one to the sum of the values. -/
lemma incrKey_sum : ∀ (m : Summary) (k : PyStr) (m2 : Summary),
    incrKey m k = some m2 → sumVals m2 = sumVals m + 1 := by
  intro m
  induction m with
  | nil => intro k m2 h; simp [incrKey] at h
  | cons kv rest ih =>
    intro k m2 h
    obtain ⟨k0, v⟩ := kv
    by_cases hk : k0 = k
    · rw [incrKey, if_pos hk] at h
      cases h
      simp [sumVals, List.map_cons, List.sum_cons]
      omega
    · rw [incrKey, if_neg hk, Option.map_eq_some'] at h
      obtain ⟨r, hr, hm2⟩ := h
      subst hm2
      have := ih k r hr
      simp [sumVals, List.map_cons, List.sum_cons] at this ⊢
      omega

/-- A summary differs from itself at no position. -/
lemma countChanged_self : ∀ m : Summary, countChanged m m = 0 := by
  intro m
  induction m with
  | nil => rfl
  | cons kv rest ih =>
    simp only [countChanged, List.zip_cons_cons, List.filter_cons] at ih ⊢
    simpa using ih

/-- A successful dict increment changes exactly one position. -/
lemma incrKey_countChanged : ∀ (m : Summary) (k : PyStr) (m2 : Summary),
    incrKey m k = some m2 → countChanged m m2 = 1 := by
  intro m
  induction m with
  | nil => intro k m2 h; simp [incrKey] at h
  | cons kv rest ih =>
    intro k m2 h
    obtain ⟨k0, v⟩ := kv
    by_cases hk : k0 = k
    · rw [incrKey, if_pos hk] at h
      cases h
      have h0 : countChanged rest rest = 0 := countChanged_self rest
      have hne : ((k0, v) : PyStr × Nat) ≠ (k0, v + 1) := by
        intro he
        have h2 := congrArg Prod.snd he
        simp at h2
      rw [countChanged, List.zip_cons_cons, List.filter_cons]
      rw [countChanged] at h0
      rw [if_pos (decide_eq_true hne), List.length_cons, h0]
    · rw [incrKey, if_neg hk, Option.map_eq_some'] at h
      obtain ⟨r, hr, hm2⟩ := h
      subst hm2
      have := ih k r hr
      simp only [countChanged, List.zip_cons_cons, List.filter_cons] at this ⊢
      simpa using this

/-- A successful scan.py record adds one to each of the two value sums. -/
lemma record_sums (st : ScanState) (c : PyStr) (e : Effect) (st2 : ScanState)
    (h : record st c e = some st2) :
    sumVals st2.crate_summary = sumVals st.crate_summary + 1 ∧
    sumVals st2.pattern_summary = sumVals st.pattern_summary + 1 := by
  rw [record] at h
  rw [Option.bind_eq_some] at h
  obtain ⟨cs, hcs, h⟩ := h
  rw [Option.map_eq_some'] at h
  obtain ⟨ps, hps, h⟩ := h
  subst h
  exact ⟨incrKey_sum _ _ _ hcs, incrKey_sum _ _ _ hps⟩

/-- `setdefault` with default `0` does not change the sum of the values. -/
lemma setdefault_sum (m : Summary) (k : PyStr) :
    sumVals (setdefault m k 0) = sumVals m := by
  rw [setdefault]
  split
  · rfl
  · simp [sumVals]

/-- A successful scripts/scan.py record adds one to each value sum. -/
lemma record_scripts_sums (st : ScanState) (c p : PyStr) (st2 : ScanState)
    (h : record_scripts st c p = some st2) :
    sumVals st2.crate_summary = sumVals st.crate_summary + 1 ∧
    sumVals st2.pattern_summary = sumVals st.pattern_summary + 1 := by
  rw [record_scripts] at h
  rw [Option.bind_eq_some] at h
  obtain ⟨cs, hcs, h⟩ := h
  rw [Option.map_eq_some'] at h
  obtain ⟨ps, hps, h⟩ := h
  subst h
  refine ⟨incrKey_sum _ _ _ hcs, ?_⟩
  have := incrKey_sum _ _ _ hps
  rwa [setdefault_sum] at this

/-- Claim C1: after any sequence of successfully recorded effects the crate
summary and pattern summary have equal value sums (for the scan.py loop and
for the scripts/scan.py loop alike), and a single record changes exactly one
entry of each of the two mappings. -/
theorem claim1_record_preserves_sum_equality :
    (∀ (evs : List (PyStr × Effect)) (st st2 : ScanState),
      sumVals st.crate_summary = sumVals st.pattern_summary →
      recordAll st evs = some st2 →
      sumVals st2.crate_summary = sumVals st2.pattern_summary) ∧
    (∀ (st : ScanState) (c : PyStr) (e : Effect) (st2 : ScanState),
      record st c e = some st2 →
      countChanged st.crate_summary st2.crate_summary = 1 ∧
      countChanged st.pattern_summary st2.pattern_summary = 1) ∧
    (∀ (evs : List (PyStr × PyStr)) (st st2 : ScanState),
      sumVals st.crate_summary = sumVals st.pattern_summary →
      recordAll_scripts st evs = some st2 →
      sumVals st2.crate_summary = sumVals st2.pattern_summary) := by
  refine ⟨?_, ?_, ?_⟩
  · intro evs
    induction evs with
    | nil =>
      intro st st2 h hr
      rw [recordAll] at hr
      cases hr
      exact h
    | cons ce rest ih =>
      intro st st2 h hr
      obtain ⟨c, e⟩ := ce
      rw [recordAll, Option.bind_eq_some] at hr
      obtain ⟨stm, h1, h2⟩ := hr
      have hs := record_sums st c e stm h1
      exact ih stm st2 (by omega) h2
  · intro st c e st2 h
    rw [record, Option.bind_eq_some] at h
    obtain ⟨cs, hcs, h⟩ := h
    rw [Option.map_eq_some'] at h
    obtain ⟨ps, hps, h⟩ := h
    subst h
    exact ⟨incrKey_countChanged _ _ _ hcs, incrKey_countChanged _ _ _ hps⟩
  · intro evs
    induction evs with
    | nil =>
      intro st st2 h hr
      rw [recordAll_scripts] at hr
      cases hr
      exact h
    | cons ce rest ih =>
      intro st st2 h hr
      obtain ⟨c, p⟩ := ce
      rw [recordAll_scripts, Option.bind_eq_some] at hr
      obtain ⟨stm, h1, h2⟩ := hr
      have hs := record_scripts_sums st c p stm h1
      exact ih stm st2 (by omega) h2

/-- Witness for C1 at a concrete seeded state, one recorded effect per loop
flavour. -/
theorem claim1_witness :
    (sumVals [(str "c", 0)] = sumVals [(str "p", 0)]) ∧
    sumVals [(str "c", 1)] = sumVals [(str "p", 1)] ∧
    (countChanged [(str "c", 0)] [(str "c", 1)] = 1 ∧
      countChanged [(str "p", 0)] [(str "p", 1)] = 1) ∧
    sumVals [(str "c", 1)] = sumVals [(str "p", 0), (str "q", 1)] := by
  refine ⟨by decide, ?_, ?_, ?_⟩
  · exact claim1_record_preserves_sum_equality.1
      [(str "c", ⟨str "c", str "p", [], [], []⟩)]
      ⟨[(str "c", 0)], [(str "p", 0)]⟩ ⟨[(str "c", 1)], [(str "p", 1)]⟩
      (by decide) (by decide)
  · exact claim1_record_preserves_sum_equality.2.1
      ⟨[(str "c", 0)], [(str "p", 0)]⟩ (str "c") ⟨str "c", str "p", [], [], []⟩
      ⟨[(str "c", 1)], [(str "p", 1)]⟩ (by decide)
  · exact claim1_record_preserves_sum_equality.2.2
      [(str "c", str "q")]
      ⟨[(str "c", 0)], [(str "p", 0)]⟩ ⟨[(str "c", 1)], [(str "p", 0), (str "q", 1)]⟩
      (by decide) (by decide)

/-- Claim C4 counterexample: in scan.py's scan loop the summary update
`pattern_summary[effect.pattern] += 1` raises a `KeyError` (modelled by
`none`) on an Effect whose pattern is not already a key — the key is not
created with initial value 0. -/
theorem claim4_counterexample :
    (str "q" ∉ ([(str "p", 0)] : Summary).map Prod.fst) ∧
    record ⟨[(str "c", 0)], [(str "p", 0)]⟩ (str "c")
      ⟨str "c", str "q", [], [], []⟩ = none := by
  decide

/-- A key present in a dict can be incremented. -/
lemma mem_keys_incrKey : ∀ (m : Summary) (k : PyStr),
    k ∈ m.map Prod.fst → ∃ m2, incrKey m k = some m2 := by
  intro m
  induction m with
  | nil => intro k h; simp at h
  | cons kv rest ih =>
    intro k h
    obtain ⟨k0, v⟩ := kv
    by_cases hk : k0 = k
    · exact ⟨(k0, v + 1) :: rest, by rw [incrKey, if_pos hk]⟩
    · have : k ∈ rest.map Prod.fst := by
        simp only [List.map_cons, List.mem_cons] at h
        rcases h with h | h
        · exact absurd h.symm hk
        · exact h
      obtain ⟨m2, hm2⟩ := ih k this
      exact ⟨(k0, v) :: m2, by rw [incrKey, if_neg hk, hm2]; rfl⟩

/-- Incrementing a freshly appended zero entry yields a one entry. -/
lemma incrKey_append_new : ∀ (m : Summary) (p : PyStr),
    p ∉ m.map Prod.fst → incrKey (m ++ [(p, 0)]) p = some (m ++ [(p, 1)]) := by
  intro m
  induction m with
  | nil => intro p _; simp [incrKey]
  | cons kv rest ih =>
    intro p hp
    obtain ⟨k0, v⟩ := kv
    simp only [List.map_cons, List.mem_cons] at hp
    push_neg at hp
    obtain ⟨hne, hrest⟩ := hp
    rw [List.cons_append, incrKey, if_neg (Ne.symm hne), ih p hrest]
    rfl

/-- Claim C4 amended: in the scripts/scan.py loop, recording an effect whose
pattern is not yet a key of the pattern summary succeeds, creating the key
via `setdefault` with initial value 0 and then incrementing it to 1 at the
end of the dict. -/
theorem claim4_setdefault_creates_key (st : ScanState) (c p : PyStr)
    (hc : c ∈ st.crate_summary.map Prod.fst)
    (hp : p ∉ st.pattern_summary.map Prod.fst) :
    (record_scripts st c p).isSome = true ∧
    (record_scripts st c p).map ScanState.pattern_summary =
      some (st.pattern_summary ++ [(p, 1)]) := by
  obtain ⟨cs, hcs⟩ := mem_keys_incrKey _ _ hc
  have hsd : setdefault st.pattern_summary p 0 = st.pattern_summary ++ [(p, 0)] := by
    rw [setdefault, if_neg hp]
  have hps := incrKey_append_new st.pattern_summary p hp
  rw [record_scripts, hcs, hsd, hps]
  simp

/-- Witness for C4's amended claim at a concrete state and fresh pattern. -/
theorem claim4_witness :
    (str "c" ∈ ([(str "c", 0)] : Summary).map Prod.fst) ∧
    (str "q" ∉ ([(str "p", 0)] : Summary).map Prod.fst) ∧
    (record_scripts ⟨[(str "c", 0)], [(str "p", 0)]⟩ (str "c") (str "q")).isSome = true ∧
    (record_scripts ⟨[(str "c", 0)], [(str "p", 0)]⟩ (str "c") (str "q")).map
      ScanState.pattern_summary = some ([(str "p", 0)] ++ [(str "q", 1)]) := by
  refine ⟨by decide, by decide, ?_⟩
  exact claim4_setdefault_creates_key ⟨[(str "c", 0)], [(str "p", 0)]⟩
    (str "c") (str "q") (by decide) (by decide)

end CargoScan

namespace CargoScan

/-! ### Claim C9: `make_summary` -/

/-- The summary-line fold appends the rendered lines in order. -/
lemma foldl_summary_lines : ∀ (l : Summary) (r : PyStr),
    l.foldl (fun r pn => r ++ summaryLine pn.1 pn.2) r = r ++ linesOf l := by
  intro l
  induction l with
  | nil => intro r; simp [linesOf]
  | cons pn rest ih =>
    intro r
    rw [List.foldl_cons, ih]
    simp [linesOf, List.append_assoc]

/-- The crate-section fold renders one line per nonzero-count crate, in
order, and counts the two partitions. -/
lemma crateFold_spec : ∀ (l : Summary) (acc : PyStr × Nat × Nat),
    l.foldl crateFold acc =
      (acc.1 ++ linesOf (l.filter (fun cn => 0 < cn.2)),
       acc.2.1 + (l.filter (fun cn => 0 < cn.2)).length,
       acc.2.2 + (l.filter (fun cn => cn.2 = 0)).length) := by
  intro l
  induction l with
  | nil => intro acc; simp [linesOf]
  | cons cn rest ih =>
    intro acc
    rw [List.foldl_cons, ih]
    by_cases h : 0 < cn.2
    · have h2 : ¬ cn.2 = 0 := by omega
      rw [crateFold, if_pos h]
      simp only [List.filter_cons, h, h2, decide_True, decide_False,
        if_true, if_false, Prod.mk.injEq]
      refine ⟨?_, ?_, ?_⟩
      · simp [linesOf, List.append_assoc]
      · simp [List.length_cons]
        omega
      · rfl
    · have h2 : cn.2 = 0 := by omega
      rw [crateFold, if_neg h]
      simp only [List.filter_cons, h, h2, decide_True, decide_False,
        if_true, if_false, Prod.mk.injEq]
      refine ⟨rfl, rfl, ?_⟩
      simp [List.length_cons]
      omega

/-- The head of an insertion is the new element or the old head. -/
lemma insertDesc_head? (x : PyStr × Nat) (l : Summary) :
    (insertDesc x l).head? = some x ∨ (insertDesc x l).head? = l.head? := by
  cases l with
  | nil => left; rfl
  | cons y ys =>
    rw [insertDesc]
    split
    · left; rfl
    · right; rfl

/-- Inserting into a descending-sorted summary keeps it sorted. -/
lemma insertDesc_sorted (x : PyStr × Nat) : ∀ l : Summary,
    sortedDesc l → sortedDesc (insertDesc x l) := by
  intro l
  induction l with
  | nil => intro _; simp [insertDesc, sortedDesc]
  | cons y ys ih =>
    intro hs
    rw [sortedDesc, List.chain'_cons'] at hs
    obtain ⟨hhead, htail⟩ := hs
    rw [insertDesc]
    split
    · rename_i hle
      rw [sortedDesc, List.chain'_cons']
      refine ⟨?_, ?_⟩
      · intro b hb
        simp only [List.head?_cons, Option.mem_def, Option.some.injEq] at hb
        subst hb
        exact hle
      · rw [List.chain'_cons']
        exact ⟨hhead, htail⟩
    · rename_i hgt
      rw [sortedDesc, List.chain'_cons']
      refine ⟨?_, ih htail⟩
      intro b hb
      rcases insertDesc_head? x ys with hh | hh
      · rw [hh] at hb
        simp only [Option.mem_def, Option.some.injEq] at hb
        subst hb
        omega
      · rw [hh] at hb
        exact hhead b hb

/-- Insertion is a permutation of consing. -/
lemma insertDesc_perm (x : PyStr × Nat) : ∀ l : Summary,
    (insertDesc x l).Perm (x :: l) := by
  intro l
  induction l with
  | nil => exact List.Perm.refl _
  | cons y ys ih =>
    rw [insertDesc]
    split
    · exact List.Perm.refl _
    · exact (ih.cons y).trans (List.Perm.swap x y ys)

/-- `sort_summary_dict` sorts in descending order of count. -/
lemma sort_summary_sorted : ∀ l : Summary, sortedDesc (sort_summary_dict l) := by
  intro l
  induction l with
  | nil => simp [sort_summary_dict, sortedDesc]
  | cons x xs ih => exact insertDesc_sorted x _ ih

/-- `sort_summary_dict` is a permutation of its input. -/
lemma sort_summary_perm : ∀ l : Summary, (sort_summary_dict l).Perm l := by
  intro l
  induction l with
  | nil => exact List.Perm.refl _
  | cons x xs ih => exact (insertDesc_perm x _).trans (ih.cons x)

/-- Claim C9: for summaries with equal value sums, `make_summary` renders the
pattern section with one line per pattern in descending count order, then the
crate section listing exactly the crates with positive count (in descending
count order, zero-count crates only counted), then one total line for each
partition: the number of crates with at least one effect and the number with
zero. -/
theorem claim9_make_summary_layout (cs ps : Summary)
    (hsum : sumVals cs = sumVals ps) :
    make_summary cs ps =
      some (str "===== Patterns =====\n"
        ++ str "Total instances of each import pattern:\n"
        ++ linesOf (sort_summary_dict ps)
        ++ str "===== Crate Summary =====\n"
        ++ str "Number of dangerous imports by crate:\n"
        ++ linesOf ((sort_summary_dict cs).filter (fun cn => 0 < cn.2))
        ++ str "===== Crate Totals =====\n"
        ++ natStr ((sort_summary_dict cs).filter (fun cn => 0 < cn.2)).length
        ++ str " crates with 1 or more dangerous imports\n"
        ++ natStr ((sort_summary_dict cs).filter (fun cn => cn.2 = 0)).length
        ++ str " crates with 0 dangerous imports\n") ∧
    sortedDesc (sort_summary_dict ps) ∧ (sort_summary_dict ps).Perm ps ∧
    sortedDesc (sort_summary_dict cs) ∧ (sort_summary_dict cs).Perm cs := by
  refine ⟨?_, sort_summary_sorted ps, sort_summary_perm ps,
    sort_summary_sorted cs, sort_summary_perm cs⟩
  rw [make_summary, if_pos hsum, foldl_summary_lines, crateFold_spec]
  simp

/-- Witness for C9 at concrete summaries with equal sums. -/
theorem claim9_witness :
    sumVals [(str "c1", 2), (str "c2", 0)] = sumVals [(str "p", 2)] ∧
    (make_summary [(str "c1", 2), (str "c2", 0)] [(str "p", 2)]).isSome = true := by
  refine ⟨by decide, ?_⟩
  rw [(claim9_make_summary_layout [(str "c1", 2), (str "c2", 0)] [(str "p", 2)]
    (by decide)).1]
  rfl

end CargoScan

namespace CargoScan

/-! ### Claim C10: `scan_rs` -/

/-- Splitting the line stream splits the scan, threading the residual. -/
lemma scanGo_append (f : PyStr → PyStr) : ∀ (ls ls2 : List PyStr) (curr : PyStr),
    scanGo f curr (ls ++ ls2) =
      ((scanGo f curr ls).1 ++ (scanGo f (scanGo f curr ls).2 ls2).1,
       (scanGo f (scanGo f curr ls).2 ls2).2) := by
  intro ls
  induction ls with
  | nil => intro ls2 curr; simp [scanGo]
  | cons l rest ih =>
    intro ls2 curr
    rw [List.cons_append, scanGo, scanGo]
    by_cases h : ';' ∈ curr ++ l
    · simp only [h, if_true]
      rw [ih]
      simp [List.cons_append]
    · simp only [h, if_false]
      exact ih ls2 (curr ++ l)

/-- The residual accumulator never contains a semicolon. -/
lemma scanGo_resid (f : PyStr → PyStr) : ∀ (ls : List PyStr) (curr : PyStr),
    ';' ∉ curr → ';' ∉ (scanGo f curr ls).2 := by
  intro ls
  induction ls with
  | nil => intro curr h; exact h
  | cons l rest ih =>
    intro curr h
    rw [scanGo]
    by_cases hm : ';' ∈ curr ++ l
    · simp only [hm, if_true]
      exact ih [] (by simp)
    · simp only [hm, if_false]
      exact ih (curr ++ l) hm

/-- Semicolon-free lines starting from a semicolon-free accumulator yield
nothing. -/
lemma scanGo_no_semi (f : PyStr → PyStr) : ∀ (ls : List PyStr) (curr : PyStr),
    ';' ∉ curr → (∀ l ∈ ls, ';' ∉ l) → (scanGo f curr ls).1 = [] := by
  intro ls
  induction ls with
  | nil => intro curr _ _; rfl
  | cons l rest ih =>
    intro curr hc hl
    rw [scanGo]
    have hm : ';' ∉ curr ++ l := by
      intro hmem
      rcases List.mem_append.mp hmem with h | h
      · exact hc h
      · exact hl l (List.mem_cons_self l rest) h
    simp only [hm, if_false]
    exact ih (curr ++ l) hm (fun x hx => hl x (List.mem_cons_of_mem l hx))

/-- Every yielded chunk is the comment-stripped image of an accumulated
segment containing a semicolon. -/
lemma scanGo_chunk_origin (f : PyStr → PyStr) : ∀ (ls : List PyStr) (curr chunk : PyStr),
    chunk ∈ (scanGo f curr ls).1 → ∃ seg, ';' ∈ seg ∧ chunk = f seg := by
  intro ls
  induction ls with
  | nil => intro curr chunk h; simp [scanGo] at h
  | cons l rest ih =>
    intro curr chunk h
    rw [scanGo] at h
    by_cases hm : ';' ∈ curr ++ l
    · simp only [hm, if_true, List.mem_cons] at h
      rcases h with h | h
      · exact ⟨curr ++ l, hm, h⟩
      · exact ih [] chunk h
    · simp only [hm, if_false] at h
      exact ih (curr ++ l) chunk h

/-- Claim C10: `scan_rs` yields a chunk exactly when the accumulated text
contains a semicolon (every chunk is the stripped image of such a segment),
and trailing semicolon-free lines after the last yielded chunk are silently
discarded: appending them does not change the output. -/
theorem claim10_scan_rs_discards_trailing (f : PyStr → PyStr) (lines : List PyStr) :
    (∀ chunk ∈ scan_rs f lines, ∃ seg, ';' ∈ seg ∧ chunk = f seg) ∧
    (∀ extra : List PyStr, (∀ l ∈ extra, ';' ∉ l) →
      scan_rs f (lines ++ extra) = scan_rs f lines) := by
  constructor
  · intro chunk h
    exact scanGo_chunk_origin f lines [] chunk h
  · intro extra hextra
    rw [scan_rs, scan_rs, scanGo_append]
    have hres : ';' ∉ (scanGo f [] lines).2 := scanGo_resid f lines [] (by simp)
    rw [scanGo_no_semi f extra (scanGo f [] lines).2 hres hextra]
    simp

/-- Witness for C10 at a concrete stream: the unterminated trailing line
`"use c\n"` is dropped without a warning. -/
theorem claim10_witness :
    (∃ seg, ';' ∈ seg ∧ str "use a;\n" = id seg) ∧
    scan_rs id ([str "use a;\n"] ++ [str "use c\n"]) = scan_rs id [str "use a;\n"] := by
  constructor
  · exact (claim10_scan_rs_discards_trailing id [str "use a;\n"]).1
      (str "use a;\n") (by decide)
  · exact (claim10_scan_rs_discards_trailing id [str "use a;\n"]).2
      [str "use c\n"] (by decide)

/-! ### Claim C7: `parse_mirai_call_line` -/

/-- Claim C7 counterexample: a `Call:` line whose location field contains
two path separators passes the six-part arity check but makes the tuple
unpacking `src_dir, path = tuple(parts[3].split("/"))` raise a `ValueError`
(modelled by `none`) — the parser does not fail closed on every input line. -/
theorem claim7_counterexample :
    (mirai_parts (str "DefId 0:6 x[1]::g src/sub/lib.rs:3:4 3:5 #0")).length = 6 ∧
    parse_mirai_call_line (str "DefId 0:6 x[1]::g src/sub/lib.rs:3:4 3:5 #0") = none := by
  constructor
  · decide
  · decide

set_option maxHeartbeats 2000000 in
/-- Claim C7 amended: whenever the token list obtained after stripping the
punctuation separators does not have exactly 6 parts,
`parse_mirai_call_line` logs a warning and returns `None` without raising;
when it returns a result, the location suffix (token 3) is split at its
unique path separator into the source directory and the file path, and the
function name is token 2; however, on a six-token line whose location field
does not contain exactly one separator the tuple unpacking raises. -/
theorem claim7_mirai_six_parts (line : PyStr) :
    ((mirai_parts line).length ≠ 6 →
      parse_mirai_call_line line = some (none, [Warning.miraiBadParts])) ∧
    (∀ (fn src_dir path : PyStr) (w : List Warning),
      parse_mirai_call_line line = some (some (fn, src_dir, path), w) →
      fn = (mirai_parts line).getD 2 [] ∧
      pySplitOn '/' ((mirai_parts line).getD 3 []) = [src_dir, path]) := by
  constructor
  · intro h
    rw [parse_mirai_call_line, if_pos h]
  · intro fn src_dir path w h
    rw [parse_mirai_call_line] at h
    by_cases h6 : (mirai_parts line).length ≠ 6
    · rw [if_pos h6] at h
      exact absurd h (by simp)
    · rw [if_neg h6] at h
      rcases hsplit : pySplitOn '/' ((mirai_parts line).getD 3 []) with
        - | ⟨a, - | ⟨b, - | ⟨c, cs⟩⟩⟩ <;> rw [hsplit] at h
      · exact absurd h (by simp)
      · exact absurd h (by simp)
      · simp only [Option.some.injEq, Prod.mk.injEq] at h
        obtain ⟨⟨hfn, ha, hb⟩, -⟩ := h
        subst hfn
        subst ha
        subst hb
        exact ⟨rfl, rfl⟩
      · exact absurd h (by simp)

/-- Witness for C7's amended claim: a short line (bad arity) and a
well-formed call line. -/
theorem claim7_witness :
    ((mirai_parts (str "hello world")).length ≠ 6 ∧
      parse_mirai_call_line (str "hello world") = some (none, [Warning.miraiBadParts])) ∧
    (str "num_cpus[1818]::get_physical" =
        (mirai_parts (str "DefId 0:5 num_cpus[1818]::get_physical src/lib.rs:109:5 109:28 #0")).getD 2 [] ∧
      pySplitOn '/' ((mirai_parts
          (str "DefId 0:5 num_cpus[1818]::get_physical src/lib.rs:109:5 109:28 #0")).getD 3 []) =
        [str "src", str "lib.rs:109:5"]) := by
  constructor
  · exact ⟨by decide, (claim7_mirai_six_parts (str "hello world")).1 (by decide)⟩
  · exact (claim7_mirai_six_parts
      (str "DefId 0:5 num_cpus[1818]::get_physical src/lib.rs:109:5 109:28 #0")).2
      (str "num_cpus[1818]::get_physical") (str "src") (str "lib.rs:109:5") []
      (by decide)

end CargoScan

namespace CargoScan

/-! ### Claims C2, C3, C6: `parse_use` -/

/-- `dropWhile` is the identity on a list none of whose elements satisfy the
predicate. -/
lemma dropWhile_eq_self_of_all {p : Char → Bool} : ∀ l : PyStr,
    (∀ c ∈ l, p c = false) → l.dropWhile p = l := by
  intro l h
  cases l with
  | nil => rfl
  | cons c cs =>
    rw [List.dropWhile_cons, if_neg]
    simp [h c (List.mem_cons_self c cs)]

/-- Stripping is the identity on a string with no whitespace. -/
lemma pyStrip_eq_self (w : PyStr) (h : ∀ c ∈ w, isSpace c = false) :
    pyStrip w = w := by
  rw [pyStrip, dropWhile_eq_self_of_all w h,
    dropWhile_eq_self_of_all _ (by intro c hc; exact h c (by simpa using hc)),
    List.reverse_reverse]

/-- A character other than the three specials only extends `pending`. -/
lemma coreStep_other (st : CoreSt) (ch : Char) (ha : st.aborted = false)
    (h1 : ch ≠ '{') (h2 : ch ≠ ',') (h3 : ch ≠ '}') :
    coreStep st ch = { st with pending := st.pending ++ [ch] } := by
  rw [coreStep]
  simp [ha, h1, h2, h3]

/-- An open brace commits `pending` and pushes the committed `cur`. -/
lemma coreStep_open (s : List PyStr) (c p : PyStr) (y : List PyStr)
    (w : List Warning) :
    coreStep ⟨s, c, p, y, w, false⟩ '{' =
      ⟨(c ++ pyStrip p) :: s, c ++ pyStrip p, [], y, w, false⟩ := by
  simp [coreStep]

/-- With a nonempty stack, a comma commits and yields `cur`, then restores
the prefix on top of the stack. -/
lemma coreStep_comma (top : PyStr) (s : List PyStr) (c p : PyStr)
    (y : List PyStr) (w : List Warning) :
    coreStep ⟨top :: s, c, p, y, w, false⟩ ',' =
      ⟨top :: s, top, [], y ++ [c ++ pyStrip p], w, false⟩ := by
  simp [coreStep]

/-- With a nonempty stack, a closing brace commits and pops. -/
lemma coreStep_close (top : PyStr) (s : List PyStr) (c p : PyStr)
    (y : List PyStr) (w : List Warning) :
    coreStep ⟨top :: s, c, p, y, w, false⟩ '}' =
      ⟨s, c ++ pyStrip p, [], y, w, false⟩ := by
  simp [coreStep]

/-- Folding the scanner over special-free text only extends `pending`. -/
lemma foldl_coreStep_plain : ∀ (w : PyStr) (st : CoreSt), st.aborted = false →
    (∀ c ∈ w, c ≠ '{' ∧ c ≠ ',' ∧ c ≠ '}') →
    w.foldl coreStep st = { st with pending := st.pending ++ w } := by
  intro w
  induction w with
  | nil =>
    intro st ha _
    cases st
    simp
  | cons c cs ih =>
    intro st ha h
    obtain ⟨h1, h2, h3⟩ := h c (List.mem_cons_self c cs)
    rw [List.foldl_cons, coreStep_other st c ha h1 h2 h3,
      ih { st with pending := st.pending ++ [c] } ha
        (fun x hx => h x (List.mem_cons_of_mem c hx))]
    simp [List.append_assoc]

/-- On a declaration body with no braces and no commas, the core parser
yields exactly the stripped body, with no warnings. -/
lemma parse_use_core_plain (body : PyStr)
    (h : ∀ c ∈ body, c ≠ '{' ∧ c ≠ ',' ∧ c ≠ '}') :
    parse_use_core body = ([pyStrip body], []) := by
  rw [parse_use_core, foldl_coreStep_plain body coreInit rfl h]
  rfl

/-- On a well-formed single-line declaration `use <body>;\n` whose body has
no stray newline, semicolon or slash, `parse_use` reaches the core parser on
exactly `body`. -/
lemma parse_use_wf (body : PyStr) (hnl : '\n' ∉ body) (hsemi : ';' ∉ body)
    (hsl : '/' ∉ body) :
    parse_use (str "use " ++ (body ++ str ";\n")) =
      some (pySorted (parse_use_core body).1, (parse_use_core body).2) := by
  have hsnl : str ";\n" = ([';'] : PyStr) ++ ['\n'] := rfl
  have hne : str "use " ++ (body ++ str ";\n") ≠ [] := by simp [str]
  have h1 : (str "use " ++ (body ++ str ";\n")).getLastD ' ' = '\n' := by
    rw [hsnl, show str "use " ++ (body ++ ([';'] ++ ['\n'])) =
      (str "use " ++ (body ++ [';'])) ++ ['\n'] by simp [List.append_assoc]]
    exact List.getLastD_concat _ _ _
  have h2 : (str "use " ++ (body ++ str ";\n")).take 4 = str "use " :=
    List.take_left' rfl
  have h3 : ';' ∈ str "use " ++ (body ++ str ";\n") := by
    refine List.mem_append.mpr (Or.inr (List.mem_append.mpr (Or.inr ?_)))
    decide
  have h4 : '/' ∉ str "use " ++ (body ++ str ";\n") := by
    intro hmem
    rcases List.mem_append.mp hmem with hm | hm
    · revert hm; decide
    · rcases List.mem_append.mp hm with hm | hm
      · exact hsl hm
      · revert hm; decide
  have h5 : use_e1 (str "use " ++ (body ++ str ";\n")) = body ++ [';'] := by
    rw [use_e1, @List.drop_left' Char (str "use ") (body ++ str ";\n") 4 rfl,
      hsnl, ← List.append_assoc, List.filter_append, List.filter_append]
    have hb : body.filter (fun c => c ≠ '\n') = body := by
      refine List.filter_eq_self.mpr ?_
      intro a ha
      simp only [ne_eq, decide_eq_true_eq]
      intro he
      rw [he] at ha
      exact hnl ha
    rw [hb]
    simp
  have h6 : use_e1 (str "use " ++ (body ++ str ";\n")) ≠ [] := by
    rw [h5]
    simp
  have h7 : (use_e1 (str "use " ++ (body ++ str ";\n"))).getLastD ' ' = ';' := by
    rw [h5]
    exact List.getLastD_concat _ _ _
  have h8 : use_body (str "use " ++ (body ++ str ";\n")) = body := by
    rw [use_body, h5]
    exact List.dropLast_concat
  rw [parse_use, if_neg hne, if_neg (fun hcon => hcon h1),
    if_neg (fun hcon => hcon h2), if_neg (fun hcon => hcon h3), if_neg h4,
    if_neg h6, if_neg (fun hcon => hcon h7), h8, if_neg hsemi]
  rw [List.nil_append]

/-- Claim C6: a well-formed import declaration with no brace groups (and no
commas, stray semicolons, slashes or newlines in its body) parses to the
single-element list holding the trimmed declaration body. -/
theorem claim6_no_braces_single_path (body : PyStr)
    (h : ∀ c ∈ body, c ∉ (['{', ',', '}', ';', '/', '\n'] : List Char)) :
    parse_use (str "use " ++ (body ++ str ";\n")) = some ([pyStrip body], []) := by
  have hplain : ∀ c ∈ body, c ≠ '{' ∧ c ≠ ',' ∧ c ≠ '}' := by
    intro c hc
    have hx := h c hc
    simp only [List.mem_cons, List.not_mem_nil, or_false, not_or] at hx
    exact ⟨hx.1, hx.2.1, hx.2.2.1⟩
  have hnl : '\n' ∉ body := by
    intro hc
    have hx := h _ hc
    simp at hx
  have hsemi : ';' ∉ body := by
    intro hc
    have hx := h _ hc
    simp at hx
  have hsl : '/' ∉ body := by
    intro hc
    have hx := h _ hc
    simp at hx
  rw [parse_use_wf body hnl hsemi hsl, parse_use_core_plain body hplain]
  rfl

/-- Witness for C6 at a concrete body with surrounding whitespace, checking
the result is the stripped body. -/
theorem claim6_witness :
    (∀ c ∈ str " foo::bar ", c ∉ (['{', ',', '}', ';', '/', '\n'] : List Char)) ∧
    parse_use (str "use " ++ (str " foo::bar " ++ str ";\n")) =
      some ([pyStrip (str " foo::bar ")], []) ∧
    pyStrip (str " foo::bar ") = str "foo::bar" := by
  refine ⟨by decide, ?_, by decide⟩
  exact claim6_no_braces_single_path (str " foo::bar ") (by decide)

end CargoScan

namespace CargoScan

/-- After an early return the scanner state is frozen. -/
lemma coreStep_aborted_frozen (st : CoreSt) (ch : Char) (h : st.aborted = true) :
    coreStep st ch = st := by
  rw [coreStep, if_pos h]

/-- Folding over any further characters keeps a frozen state. -/
lemma foldl_coreStep_aborted : ∀ (cs : PyStr) (st : CoreSt),
    st.aborted = true → cs.foldl coreStep st = st := by
  intro cs
  induction cs with
  | nil => intro st _; rfl
  | cons ch cs ih =>
    intro st h
    rw [List.foldl_cons, coreStep_aborted_frozen st ch h, ih st h]

/-- A step that aborts has logged a warning. -/
lemma coreStep_abort_warns (st : CoreSt) (ch : Char) (h : st.aborted = false)
    (h2 : (coreStep st ch).aborted = true) : (coreStep st ch).warns ≠ [] := by
  rw [coreStep, if_neg (by simp [h])] at h2 ⊢
  by_cases c1 : ch = '{'
  · simp [c1, h] at h2
  · by_cases c2 : ch = ','
    · cases hs : st.stack with
      | nil => simp [c1, c2, hs]
      | cons t s => simp [c1, c2, hs, h] at h2
    · by_cases c3 : ch = '}'
      · cases hs : st.stack with
        | nil => simp [c1, c2, c3, hs]
        | cons t s => simp [c1, c2, c3, hs, h] at h2
      · simp [c1, c2, c3, h] at h2

/-- A step that does not abort keeps the warnings and moves the stack depth
exactly as the depth scan of that one character. -/
lemma coreStep_depth (st : CoreSt) (ch : Char) (h : st.aborted = false)
    (h2 : (coreStep st ch).aborted = false) :
    (coreStep st ch).warns = st.warns ∧
    scanDepth [ch] st.stack.length = some (coreStep st ch).stack.length := by
  rw [coreStep, if_neg (by simp [h])] at h2 ⊢
  by_cases c1 : ch = '{'
  · simp [c1, scanDepth]
  · by_cases c2 : ch = ','
    · cases hs : st.stack with
      | nil => simp [c1, c2, hs] at h2
      | cons t s => simp [c1, c2, hs, scanDepth]
    · by_cases c3 : ch = '}'
      · cases hs : st.stack with
        | nil => simp [c1, c2, c3, hs] at h2
        | cons t s => simp [c1, c2, c3, hs, scanDepth]
      · simp [c1, c2, c3, scanDepth]

/-- The depth scan of a cons factors through the depth after one character. -/
lemma scanDepth_cons_of (c : Char) (cs : PyStr) (d d1 : Nat)
    (h : scanDepth [c] d = some d1) : scanDepth (c :: cs) d = scanDepth cs d1 := by
  by_cases c1 : c = '{'
  · subst c1
    have h2 : d + 1 = d1 := by simpa [scanDepth] using h
    simp [scanDepth, h2]
  · by_cases c3 : c = '}'
    · subst c3
      cases d with
      | zero => simp [scanDepth] at h
      | succ d2 =>
        have h2 : d2 = d1 := by simpa [scanDepth] using h
        simp [scanDepth, h2]
    · have h2 : d = d1 := by simpa [scanDepth, c1, c3] using h
      simp [scanDepth, c1, c3, h2]

/-- Invariant of the scanner fold: while no early return has happened the
warning list is unchanged and the stack depth follows the brace-depth scan;
once an early return happens the warning list is nonempty. -/
lemma core_invariant : ∀ (cs : PyStr) (st : CoreSt), st.aborted = false →
    ((cs.foldl coreStep st).aborted = false →
      (cs.foldl coreStep st).warns = st.warns ∧
      scanDepth cs st.stack.length = some (cs.foldl coreStep st).stack.length) ∧
    ((cs.foldl coreStep st).aborted = true → (cs.foldl coreStep st).warns ≠ []) := by
  intro cs
  induction cs with
  | nil =>
    intro st h
    exact ⟨fun _ => ⟨rfl, rfl⟩, fun h2 => absurd h2 (by simp [h])⟩
  | cons ch cs ih =>
    intro st h
    by_cases h2 : (coreStep st ch).aborted = true
    · have hfr := foldl_coreStep_aborted cs (coreStep st ch) h2
      rw [List.foldl_cons, hfr]
      exact ⟨fun hf => absurd h2 (by simp [hf]),
        fun _ => coreStep_abort_warns st ch h h2⟩
    · rw [Bool.not_eq_true] at h2
      obtain ⟨hw, hd⟩ := coreStep_depth st ch h h2
      have hrec := ih (coreStep st ch) h2
      rw [List.foldl_cons]
      refine ⟨fun hf => ?_, fun hf => hrec.2 hf⟩
      obtain ⟨hw2, hd2⟩ := hrec.1 hf
      refine ⟨hw2.trans hw, ?_⟩
      rw [scanDepth_cons_of ch cs _ _ hd]
      exact hd2

/-- On an input with unbalanced braces the core parser logs a warning. -/
lemma core_unbalanced_warns (e : PyStr) (h : ¬ balancedBraces e) :
    (parse_use_core e).2 ≠ [] := by
  have hinv := core_invariant e coreInit rfl
  show (if (e.foldl coreStep coreInit).aborted then
      ((e.foldl coreStep coreInit).yielded, (e.foldl coreStep coreInit).warns)
    else
      ((e.foldl coreStep coreInit).yielded ++
        [(e.foldl coreStep coreInit).cur ++ pyStrip (e.foldl coreStep coreInit).pending],
       if (e.foldl coreStep coreInit).stack = [] then (e.foldl coreStep coreInit).warns
       else (e.foldl coreStep coreInit).warns ++ [Warning.unclosedBrace])).2 ≠ []
  by_cases hab : (e.foldl coreStep coreInit).aborted = true
  · rw [if_pos hab]
    exact hinv.2 hab
  · rw [Bool.not_eq_true] at hab
    obtain ⟨hw, hd⟩ := hinv.1 hab
    rw [if_neg (by simp [hab])]
    by_cases hs : (e.foldl coreStep coreInit).stack = []
    · exfalso
      apply h
      rw [balancedBraces]
      rw [hs] at hd
      exact hd
    · rw [if_neg hs]
      simp

end CargoScan

namespace CargoScan

/-- Claim C3 counterexample: `parse_use` raises an uncaught `IndexError`
(modelled by `none`) on the empty input string, at the indexing `expr[-1]`
of the first precondition check — it is not exception-free on every input. -/
theorem claim3_counterexample : parse_use [] = none := by decide

/-- Claim C3 amended: on every nonempty input string `parse_use` never
raises: each precondition failure (input not ending in a newline, not
starting with `use `, containing no semicolon, or containing a slash)
returns the empty list and logs a warning, and an input whose normalized
body has unbalanced braces yields a logged warning with a best-effort
result; only the empty string raises. -/
theorem claim3_parse_use_total_on_nonempty (expr : PyStr) (hne : expr ≠ []) :
    (parse_use expr).isSome = true ∧
    ((expr.getLastD ' ' ≠ '\n' ∨ expr.take 4 ≠ str "use " ∨ ';' ∉ expr ∨
        '/' ∈ expr) →
      (parse_use expr).map Prod.fst = some [] ∧
      (parse_use expr).map Prod.snd ≠ some []) ∧
    (¬ balancedBraces (use_body expr) →
      (parse_use expr).map Prod.snd ≠ some []) := by
  by_cases k1 : expr.getLastD ' ' ≠ '\n'
  · have hv : parse_use expr = some ([], [Warning.expectedNewline]) := by
      rw [parse_use, if_neg hne, if_pos k1]
    exact ⟨by simp [hv], fun _ => ⟨by simp [hv], by simp [hv]⟩, by simp [hv]⟩
  · by_cases k2 : expr.take 4 ≠ str "use "
    · have hv : parse_use expr = some ([], [Warning.expectedUse]) := by
        rw [parse_use, if_neg hne, if_neg k1, if_pos k2]
      exact ⟨by simp [hv], fun _ => ⟨by simp [hv], by simp [hv]⟩, by simp [hv]⟩
    · by_cases k3 : ';' ∉ expr
      · have hv : parse_use expr = some ([], [Warning.expectedSemicolon]) := by
          rw [parse_use, if_neg hne, if_neg k1, if_neg k2, if_pos k3]
        exact ⟨by simp [hv], fun _ => ⟨by simp [hv], by simp [hv]⟩, by simp [hv]⟩
      · by_cases k4 : '/' ∈ expr
        · have hv : parse_use expr = some ([], [Warning.unexpectedSlash]) := by
            rw [parse_use, if_neg hne, if_neg k1, if_neg k2, if_neg k3, if_pos k4]
          exact ⟨by simp [hv], fun _ => ⟨by simp [hv], by simp [hv]⟩, by simp [hv]⟩
        · have hfail : ¬(expr.getLastD ' ' ≠ '\n' ∨ expr.take 4 ≠ str "use " ∨
              ';' ∉ expr ∨ '/' ∈ expr) := by
            intro hd
            rcases hd with hx | hx | hx | hx
            · exact k1 hx
            · exact k2 hx
            · exact k3 hx
            · exact k4 hx
          rw [not_ne_iff] at k2
          have hsem : ';' ∈ expr := not_not.mp k3
          have hsemi_in : ';' ∈ expr.drop 4 := by
            have hm : ';' ∈ expr.take 4 ++ expr.drop 4 := by
              rw [List.take_append_drop]
              exact hsem
            rcases List.mem_append.mp hm with hx | hx
            · rw [k2] at hx
              exact absurd hx (by decide)
            · exact hx
          have he1 : ';' ∈ use_e1 expr := by
            rw [use_e1]
            exact List.mem_filter.mpr ⟨hsemi_in, by decide⟩
          have hne1 : use_e1 expr ≠ [] := List.ne_nil_of_mem he1
          by_cases k5 : (use_e1 expr).getLastD ' ' ≠ ';'
          · have hv : parse_use expr = some ([], [Warning.expectedSemicolonAtEnd]) := by
              rw [parse_use, if_neg hne, if_neg k1]
              rw [if_neg (fun hcon => hcon k2), if_neg k3, if_neg k4,
                if_neg hne1, if_pos k5]
            exact ⟨by simp [hv], fun hd => absurd hd hfail, by simp [hv]⟩
          · have hv : parse_use expr =
                some (pySorted (parse_use_core (use_body expr)).1,
                  (if ';' ∈ use_body expr then [Warning.extraSemicolon] else [])
                    ++ (parse_use_core (use_body expr)).2) := by
              rw [parse_use, if_neg hne, if_neg k1]
              rw [if_neg (fun hcon => hcon k2), if_neg k3, if_neg k4,
                if_neg hne1, if_neg k5]
            refine ⟨by simp [hv], fun hd => absurd hd hfail, ?_⟩
            intro hub
            have hcore := core_unbalanced_warns (use_body expr) hub
            rw [hv]
            simp only [Option.map_some', ne_eq, Option.some.injEq]
            intro hcontra
            rcases List.append_eq_nil.mp hcontra with ⟨-, hw2⟩
            exact hcore hw2

/-- Witness for C3's amended claim: a precondition-failing input and an
unbalanced-brace input, both nonempty. -/
theorem claim3_witness :
    ((str "x\n" : PyStr) ≠ [] ∧
      (parse_use (str "x\n")).map Prod.fst = some [] ∧
      (parse_use (str "x\n")).map Prod.snd ≠ some []) ∧
    ((str "use a::\x7bb;\n" : PyStr) ≠ [] ∧
      (parse_use (str "use a::\x7bb;\n")).isSome = true ∧
      (parse_use (str "use a::\x7bb;\n")).map Prod.snd ≠ some []) := by
  constructor
  · refine ⟨by decide, ?_⟩
    exact (claim3_parse_use_total_on_nonempty (str "x\n") (by decide)).2.1
      (by decide)
  · refine ⟨by decide, ?_, ?_⟩
    · exact (claim3_parse_use_total_on_nonempty (str "use a::\x7bb;\n")
        (by decide)).1
    · exact (claim3_parse_use_total_on_nonempty (str "use a::\x7bb;\n")
        (by decide)).2.2 (by decide)

end CargoScan

namespace CargoScan

/-- Characters that are plain (not special, not whitespace) give a segment
free of newline, semicolon and slash, and free of the three scanner
specials. -/
lemma plain_not_special {w : PyStr}
    (h : ∀ ch ∈ w, ch ∉ (['{', ',', '}', ';', '/'] : List Char) ∧
      isSpace ch = false) :
    '\n' ∉ w ∧ ';' ∉ w ∧ '/' ∉ w ∧
    (∀ ch ∈ w, (ch ≠ '{' ∧ ch ≠ ',' ∧ ch ≠ '}') ∧ isSpace ch = false) := by
  refine ⟨?_, ?_, ?_, ?_⟩
  · intro hm
    have hx := (h _ hm).2
    simp [isSpace] at hx
  · intro hm
    have hx := (h _ hm).1
    simp at hx
  · intro hm
    have hx := (h _ hm).1
    simp at hx
  · intro ch hm
    have h1 := (h ch hm).1
    simp only [List.mem_cons, List.not_mem_nil, or_false, not_or] at h1
    exact ⟨⟨h1.1, h1.2.1, h1.2.2.1⟩, (h ch hm).2⟩

/-- A character avoiding the four segments and the three specials is not in
the assembled group body. -/
lemma group_body_no (x : Char) (pre a b c : PyStr)
    (hp : x ∉ pre) (ha : x ∉ a) (hb : x ∉ b) (hc : x ∉ c)
    (h1 : x ≠ '{') (h2 : x ≠ ',') (h3 : x ≠ '}') :
    x ∉ pre ++ ('{' :: (a ++ (',' :: (b ++ (',' :: (c ++ ['}'])))))) := by
  intro hm
  simp only [List.mem_append, List.mem_cons, List.not_mem_nil, or_false] at hm
  rcases hm with hx | hx | hx | hx | hx | hx | hx | hx
  · exact hp hx
  · exact h1 hx
  · exact ha hx
  · exact h2 hx
  · exact hb hx
  · exact h2 hx
  · exact hc hx
  · exact h3 hx

/-- Running the scanner over one brace group `pre{a,b,c}` of plain segments
yields exactly the three expanded paths, in source order, with no warnings. -/
lemma parse_use_core_group (pre a b c : PyStr)
    (hpre : ∀ ch ∈ pre, (ch ≠ '{' ∧ ch ≠ ',' ∧ ch ≠ '}') ∧ isSpace ch = false)
    (ha : ∀ ch ∈ a, (ch ≠ '{' ∧ ch ≠ ',' ∧ ch ≠ '}') ∧ isSpace ch = false)
    (hb : ∀ ch ∈ b, (ch ≠ '{' ∧ ch ≠ ',' ∧ ch ≠ '}') ∧ isSpace ch = false)
    (hc : ∀ ch ∈ c, (ch ≠ '{' ∧ ch ≠ ',' ∧ ch ≠ '}') ∧ isSpace ch = false) :
    parse_use_core (pre ++ ('{' :: (a ++ (',' :: (b ++ (',' :: (c ++ ['}'])))))))
      = ([pre ++ a, pre ++ b, pre ++ c], []) := by
  have hps : pyStrip pre = pre := pyStrip_eq_self pre (fun ch h => (hpre ch h).2)
  have has : pyStrip a = a := pyStrip_eq_self a (fun ch h => (ha ch h).2)
  have hbs : pyStrip b = b := pyStrip_eq_self b (fun ch h => (hb ch h).2)
  have hcs : pyStrip c = c := pyStrip_eq_self c (fun ch h => (hc ch h).2)
  have e0 : pre.foldl coreStep coreInit = ⟨[], [], pre, [], [], false⟩ := by
    rw [foldl_coreStep_plain pre coreInit rfl (fun ch h => (hpre ch h).1)]
    rfl
  have e1 : coreStep ⟨[], [], pre, [], [], false⟩ '{' =
      ⟨[pre], pre, [], [], [], false⟩ := by
    rw [coreStep_open, hps]
    rfl
  have e2 : a.foldl coreStep ⟨[pre], pre, [], [], [], false⟩ =
      ⟨[pre], pre, a, [], [], false⟩ := by
    rw [foldl_coreStep_plain a ⟨[pre], pre, [], [], [], false⟩ rfl
      (fun ch h => (ha ch h).1)]
    rfl
  have e3 : coreStep ⟨[pre], pre, a, [], [], false⟩ ',' =
      ⟨[pre], pre, [], [pre ++ a], [], false⟩ := by
    rw [coreStep_comma, has]
    rfl
  have e4 : b.foldl coreStep ⟨[pre], pre, [], [pre ++ a], [], false⟩ =
      ⟨[pre], pre, b, [pre ++ a], [], false⟩ := by
    rw [foldl_coreStep_plain b ⟨[pre], pre, [], [pre ++ a], [], false⟩ rfl
      (fun ch h => (hb ch h).1)]
    rfl
  have e5 : coreStep ⟨[pre], pre, b, [pre ++ a], [], false⟩ ',' =
      ⟨[pre], pre, [], [pre ++ a, pre ++ b], [], false⟩ := by
    rw [coreStep_comma, hbs]
    rfl
  have e6 : c.foldl coreStep ⟨[pre], pre, [], [pre ++ a, pre ++ b], [], false⟩ =
      ⟨[pre], pre, c, [pre ++ a, pre ++ b], [], false⟩ := by
    rw [foldl_coreStep_plain c ⟨[pre], pre, [], [pre ++ a, pre ++ b], [], false⟩
      rfl (fun ch h => (hc ch h).1)]
    rfl
  have e7 : coreStep ⟨[pre], pre, c, [pre ++ a, pre ++ b], [], false⟩ '}' =
      ⟨[], pre ++ c, [], [pre ++ a, pre ++ b], [], false⟩ := by
    rw [coreStep_close, hcs]
  have hfold : List.foldl coreStep coreInit
      (pre ++ ('{' :: (a ++ (',' :: (b ++ (',' :: (c ++ ['}']))))))) =
      ⟨[], pre ++ c, [], [pre ++ a, pre ++ b], [], false⟩ := by
    rw [List.foldl_append, e0, List.foldl_cons, e1, List.foldl_append, e2,
      List.foldl_cons, e3, List.foldl_append, e4, List.foldl_cons, e5,
      List.foldl_append, e6, List.foldl_cons, e7, List.foldl_nil]
  rw [parse_use_core, hfold]
  simp [pyStrip]

/-- Claim C2 counterexample: the result of `parse_use` is not deduplicated —
for the group `a::{b,b,b}` it returns three copies of `a::b`, not the
one-element set. -/
theorem claim2_counterexample :
    parse_use (str "use a::\x7bb,b,b\x7d;\n") =
      some ([str "a::b", str "a::b", str "a::b"], []) ∧
    ¬ ([str "a::b", str "a::b", str "a::b"] : List PyStr).Nodup := by
  constructor
  · decide
  · decide

/-- Claim C2 amended: for an import declaration with a single brace group
`pre{a,b,c}` of plain segments, `parse_use` returns exactly the list of the
three expanded paths `pre+a`, `pre+b`, `pre+c` in lexicographic order, with
duplicates preserved (the code does not deduplicate); in particular, for
arbitrarily nested groups, `parse_use "use a::{b::{c,d},e};\n"` returns
`["a::b::c", "a::b::d", "a::e"]`. -/
theorem claim2_brace_group_expansion (pre a b c : PyStr)
    (hpre : ∀ ch ∈ pre, ch ∉ (['{', ',', '}', ';', '/'] : List Char) ∧
      isSpace ch = false)
    (ha : ∀ ch ∈ a, ch ∉ (['{', ',', '}', ';', '/'] : List Char) ∧
      isSpace ch = false)
    (hb : ∀ ch ∈ b, ch ∉ (['{', ',', '}', ';', '/'] : List Char) ∧
      isSpace ch = false)
    (hc : ∀ ch ∈ c, ch ∉ (['{', ',', '}', ';', '/'] : List Char) ∧
      isSpace ch = false) :
    parse_use (str "use " ++
        ((pre ++ ('{' :: (a ++ (',' :: (b ++ (',' :: (c ++ ['}'])))))))
          ++ str ";\n")) =
      some (pySorted [pre ++ a, pre ++ b, pre ++ c], []) ∧
    parse_use (str "use a::\x7bb::\x7bc,d\x7d,e\x7d;\n") =
      some ([str "a::b::c", str "a::b::d", str "a::e"], []) := by
  obtain ⟨hnlp, hsp, hslp, hplainp⟩ := plain_not_special hpre
  obtain ⟨hnla, hsa, hsla, hplaina⟩ := plain_not_special ha
  obtain ⟨hnlb, hsb, hslb, hplainb⟩ := plain_not_special hb
  obtain ⟨hnlc, hsc, hslc, hplainc⟩ := plain_not_special hc
  constructor
  · rw [parse_use_wf _
      (group_body_no '\n' pre a b c hnlp hnla hnlb hnlc
        (by decide) (by decide) (by decide))
      (group_body_no ';' pre a b c hsp hsa hsb hsc
        (by decide) (by decide) (by decide))
      (group_body_no '/' pre a b c hslp hsla hslb hslc
        (by decide) (by decide) (by decide)),
      parse_use_core_group pre a b c hplainp hplaina hplainb hplainc]
  · decide

/-- Witness for C2's amended claim at concrete plain segments. -/
theorem claim2_witness :
    (∀ ch ∈ str "x::", ch ∉ (['{', ',', '}', ';', '/'] : List Char) ∧
      isSpace ch = false) ∧
    parse_use (str "use " ++
        ((str "x::" ++ ('{' :: (str "q" ++ (',' :: (str "p" ++
          (',' :: (str "r" ++ ['}'])))))))
          ++ str ";\n")) =
      some (pySorted [str "x::" ++ str "q", str "x::" ++ str "p",
        str "x::" ++ str "r"], []) := by
  refine ⟨by decide, ?_⟩
  exact (claim2_brace_group_expansion (str "x::") (str "q") (str "p") (str "r")
    (by decide) (by decide) (by decide) (by decide)).1

end CargoScan
